import Mathlib

/-!
Verification of the disjunct-preparation stage of a link-grammar parser
(`preparation.c`): expression-to-disjunct expansion, duplicate elimination,
connector distance-bound computation and provenance tagging.

The functions `set_dist_fields`, `setup_connectors`,
`gword_record_in_connector`, `build_sentence_disjuncts` and
`prepare_to_parse` are shallow embeddings of the C source.  Collaborators
whose code is not part of the source tree (the expression expander
`build_disjuncts_for_exp`, `catenate_disjuncts`,
`eliminate_duplicate_disjuncts`, the memory pools) are modelled from the
specification; each such definition says so in its doc comment.
Pointer-linked NULL-terminated chains are modelled as Lean lists,
machine integers as `Int` (all quantities involved are tiny word
indices, far from any overflow), costs as `ℚ`.
-/

namespace LG

/-- Connector: one link endpoint.  Modelled from the spec (the struct
definition is not in the source tree): direction is given by which chain
(left or right) holds the connector; the remaining fields are the type
label, cost, `length_limit`, the `shallow` flag, the computed
`nearest_word` / `farthest_word` bounds and the word-graph provenance
back-reference (a lattice-node set, modelled by its list of node ids). -/
structure Connector where
  label : String
  cost : ℚ
  length_limit : Nat
  shallow : Bool
  nearest_word : Int
  farthest_word : Int
  originating_gword : List Nat
deriving DecidableEq

/-- Disjunct: one candidate interpretation of a word, with a left and a
right connector chain, a display string, a total cost and a set of
originating lattice nodes.  The `next` pointer of the C struct is the
list structure itself. -/
structure Disjunct where
  left : List Connector
  right : List Connector
  string : String
  cost : ℚ
  originating_gword : List Nat
deriving DecidableEq

/-- Expression: boolean-combination tree over terminal connectors.
Modelled from the spec: AND/OR nodes carry an ordered sequence of child
expressions, encoded here as right-nested binary nodes with explicit
empty sequences (`andNil` is the empty conjunction, `orNil` the empty
disjunction); a terminal carries direction, label, cost, length limit
and an optionality flag. -/
inductive Exp where
  | connectorE (right_side : Bool) (label : String) (cost : ℚ)
      (length_limit : Nat) (opt : Bool) : Exp
  | andNil : Exp
  | andE (a b : Exp) : Exp
  | orNil : Exp
  | orE (a b : Exp) : Exp
deriving DecidableEq

/-- X_node: one alternative of a word, pairing an expression with the
display string and the originating lattice-node set of the word. -/
structure X_node where
  exp : Exp
  string : String
  gword_set_head : List Nat
deriving DecidableEq

/-- Word: the alternatives (`x`) and, after preparation, the disjunct
list (`d`) of one sentence position. -/
structure Word where
  x : List X_node
  d : List Disjunct
deriving DecidableEq

/-- Sentence: the ordered sequence of words. -/
structure Sentence where
  word : List Word
deriving DecidableEq

/-- Sentence length (`sent->length`). -/
def Sentence.length (s : Sentence) : Nat := s.word.length

/-- Parse_Options: only the disjunct cost cutoff is consumed here. -/
structure Parse_Options where
  disjunct_cost : ℚ
deriving DecidableEq

/-! ### Connector Reachability Setter (from source: `set_dist_fields`,
`setup_connectors`) -/

/-- Embedding of `set_dist_fields` from the source: walks the chain to
its end (the recursion bottoms out at NULL returning `w`), then assigns
each connector `nearest_word := ⟨value of the next connector⟩ + delta`
and `farthest_word := w + delta*length_limit` clamped at `w_clamp`,
returning the head connector's `nearest_word` (or `w` for the empty
chain).  In-place mutation of the chain becomes returning the updated
chain alongside the returned index. -/
def set_dist_fields : List Connector → Nat → Int → Int → List Connector × Int
  | [], w, _, _ => ([], (w : Int))
  | c :: rest, w, delta, w_clamp =>
    ({ c with
        nearest_word := (set_dist_fields rest w delta w_clamp).2 + delta,
        farthest_word :=
          if delta * ((w : Int) + delta * (c.length_limit : Int)) > w_clamp
          then w_clamp
          else (w : Int) + delta * (c.length_limit : Int) }
      :: (set_dist_fields rest w delta w_clamp).1,
     (set_dist_fields rest w delta w_clamp).2 + delta)

/-- Setting `shallow` on the head connector of a chain, as done by
`if (NULL != d->left) d->left->shallow = true;` in `setup_connectors`. -/
def markShallow : List Connector → List Connector
  | [] => []
  | c :: cs => { c with shallow := true } :: cs

/-- One disjunct's treatment inside the `setup_connectors` loop: run
`set_dist_fields` on the left chain (delta -1, clamp 0) and, if its
result is not negative, on the right chain (delta 1, clamp length-1);
drop the disjunct when either returned index is out of range, otherwise
keep it with the updated chains and `shallow` set on each non-empty
side's head. -/
def setup_disjunct (w len : Nat) (d : Disjunct) : Option Disjunct :=
  if (set_dist_fields d.left w (-1) 0).2 < 0 then none
  else if (len : Int) ≤ (set_dist_fields d.right w 1 ((len : Int) - 1)).2 then none
  else some { d with
      left := markShallow (set_dist_fields d.left w (-1) 0).1,
      right := markShallow (set_dist_fields d.right w 1 ((len : Int) - 1)).1 }

/-- The per-word loop of `setup_connectors`: traverse the disjunct list,
prepending each kept disjunct to `head` (so the surviving list comes out
reversed, exactly as in the C loop). -/
def setup_word (w len : Nat) : List Disjunct → List Disjunct → List Disjunct
  | [], head => head
  | d :: rest, head =>
    match setup_disjunct w len d with
    | none => setup_word w len rest head
    | some d2 => setup_word w len rest (d2 :: head)

/-- The word loop of `setup_connectors`, carrying the running word
index. -/
def setup_words (len : Nat) : Nat → List Word → List Word
  | _, [] => []
  | w, wd :: rest => { wd with d := setup_word w len wd.d [] } :: setup_words len (w + 1) rest

/-- Embedding of `setup_connectors` from the source. -/
def setup_connectors (sent : Sentence) : Sentence :=
  ⟨setup_words sent.length 0 sent.word⟩

/-! ### Provenance Tagger (from source: `gword_record_in_connector`) -/

/-- Embedding of `gword_record_in_connector` from the source: for every
disjunct of the sentence's disjunct block (`sent->dc_memblock`, modelled
as a list of disjuncts), copy the disjunct's `originating_gword` into
every connector of its right and left chains. -/
def gword_record_in_connector (block : List Disjunct) : List Disjunct :=
  block.map fun d =>
    { d with
      right := d.right.map fun c => { c with originating_gword := d.originating_gword },
      left := d.left.map fun c => { c with originating_gword := d.originating_gword } }

/-! ### Expression Expander (modelled from the spec; the code of
`build_disjuncts_for_exp` is not in the source tree) -/

/-- Clause: an in-progress disjunct during expansion (connector chains
plus accumulated cost). -/
structure Clause where
  left : List Connector
  right : List Connector
  cost : ℚ
deriving DecidableEq

/-- Connector freshly drawn from the zeroed Connector pool, carrying a
terminal's label, cost and length limit; distance and flag fields are
zeroed. -/
def mkConnector (lab : String) (c : ℚ) (ll : Nat) : Connector :=
  ⟨lab, c, ll, false, 0, 0, []⟩

/-- Clause with no connectors and cost 0. -/
def emptyClause : Clause := ⟨[], [], 0⟩

/-- AND-combination of two clauses: left chains concatenate, right
chains concatenate, costs add. -/
def combineClause (p q : Clause) : Clause :=
  ⟨p.left ++ q.left, p.right ++ q.right, p.cost + q.cost⟩

/-- Modelled from the spec: the recursive expansion at the heart of
`build_disjuncts_for_exp`.  A terminal yields one single-connector
clause of its own cost (plus the empty clause when optional); OR
concatenates the branches' expansions; AND forms the cross-product of
the children's expansions, concatenating chains and summing costs.  The
cost cutoff is applied eagerly at every point where a clause is formed:
any clause whose accumulated cost exceeds the cutoff is discarded
rather than materialized. -/
def build_clause (cutoff : ℚ) : Exp → List Clause
  | .connectorE rs lab c ll opt =>
    (if c ≤ cutoff then
      [if rs then ⟨[], [mkConnector lab c ll], c⟩ else ⟨[mkConnector lab c ll], [], c⟩]
     else [])
    ++ (if opt ∧ (0 : ℚ) ≤ cutoff then [emptyClause] else [])
  | .andNil => if (0 : ℚ) ≤ cutoff then [emptyClause] else []
  | .andE a b =>
    (build_clause cutoff a).flatMap fun p =>
      (build_clause cutoff b).filterMap fun q =>
        if p.cost + q.cost ≤ cutoff then some (combineClause p q) else none
  | .orNil => []
  | .orE a b => build_clause cutoff a ++ build_clause cutoff b

/-- Modelled from the spec: `build_disjuncts_for_exp` expands one
alternative's expression under the cost cutoff and attaches the word's
display string and originating lattice-node set to every resulting
disjunct. -/
def build_disjuncts_for_exp (e : Exp) (wstring : String) (gs : List Nat)
    (cost_cutoff : ℚ) : List Disjunct :=
  (build_clause cost_cutoff e).map fun p => ⟨p.left, p.right, wstring, p.cost, gs⟩

/-! ### Disjunct List Merger (call structure from source:
`build_sentence_disjuncts`; `catenate_disjuncts` modelled from the spec) -/

/-- Modelled from the spec: `catenate_disjuncts` concatenates two
disjunct lists (its code is not in the source tree). -/
def catenate_disjuncts (a b : List Disjunct) : List Disjunct := a ++ b

/-- The per-word alternative loop of `build_sentence_disjuncts`:
`d = NULL; for each x: d = catenate_disjuncts(build_disjuncts_for_exp(...), d)`. -/
def build_word_disjuncts (cutoff : ℚ) (xs : List X_node) : List Disjunct :=
  xs.foldl
    (fun d x => catenate_disjuncts
      (build_disjuncts_for_exp x.exp x.string x.gword_set_head cutoff) d) []

/-- Embedding of `build_sentence_disjuncts` from the source (its word
loop; the two pool creations it performs are embedded separately as
`sentence_Disjunct_pool` and `sentence_Connector_pool`). -/
def build_sentence_disjuncts (cutoff : ℚ) (sent : Sentence) : Sentence :=
  ⟨sent.word.map fun wd => { wd with d := build_word_disjuncts cutoff wd.x }⟩

/-! ### Duplicate Eliminator (modelled from the spec; the code of
`eliminate_duplicate_disjuncts` is not in the source tree) -/

/-- Structural key of a connector for duplicate detection: type label,
cost and length limit (direction is given by the chain the connector
sits on). -/
def connKey (c : Connector) : String × ℚ × Nat := (c.label, c.cost, c.length_limit)

/-- Structural key of a disjunct: the ordered key sequences of its two
chains. -/
def dKey (d : Disjunct) : List (String × ℚ × Nat) × List (String × ℚ × Nat) :=
  (d.left.map connKey, d.right.map connKey)

/-- Modelled from the spec: insert one disjunct into an accumulator list
that contains no two structurally-equal disjuncts.  If a structurally
equal disjunct is already present, that first-seen survivor absorbs the
newcomer's provenance (the spec flags the survivor-choice policy as an
open question; first-seen is the policy adopted here); otherwise the
disjunct is appended. -/
def insert_dup (acc : List Disjunct) (d : Disjunct) : List Disjunct :=
  match acc with
  | [] => [d]
  | a :: rest =>
    if dKey a = dKey d then
      { a with originating_gword := a.originating_gword.union d.originating_gword } :: rest
    else a :: insert_dup rest d

/-- Modelled from the spec: `eliminate_duplicate_disjuncts` (code not in
the source tree) deduplicates a word's disjunct list under structural
equality of the connector chains, keeping one survivor per equivalence
class whose provenance is the union of all members' provenance. -/
def eliminate_duplicate_disjuncts (l : List Disjunct) : List Disjunct :=
  l.foldl insert_dup []

/-- The dedup loop of `prepare_to_parse`:
`for i: sent->word[i].d = eliminate_duplicate_disjuncts(sent->word[i].d)`. -/
def eliminate_duplicates_stage (sent : Sentence) : Sentence :=
  ⟨sent.word.map fun wd => { wd with d := eliminate_duplicate_disjuncts wd.d }⟩

/-! ### Arena pools (creation arguments from source:
`build_sentence_disjuncts`; pool semantics modelled from the spec) -/

/-- Pool descriptor recording the arguments of `pool_new`. -/
structure Pool where
  pool_name : String
  num_elements : Nat
  zero_out : Bool
  align_flag : Bool
  exact_flag : Bool
deriving DecidableEq

/-- Modelled from the spec: `pool_new` creates a fixed-shape pool with
the given capacity hint and flags (code not in the source tree). -/
def pool_new (_caller : String) (pname : String) (num : Nat)
    (zero_out align_flag exact_flag : Bool) : Pool :=
  ⟨pname, num, zero_out, align_flag, exact_flag⟩

/-- The Disjunct pool created by `build_sentence_disjuncts` in the
source: 2048 elements, zero_out false, align false, exact false. -/
def sentence_Disjunct_pool : Pool :=
  pool_new ("build_sentence_disjuncts") ("Disjunct") 2048 false false false

/-- The Connector pool created by `build_sentence_disjuncts` in the
source: 8192 elements, zero_out true, align false, exact false. -/
def sentence_Connector_pool : Pool :=
  pool_new ("build_sentence_disjuncts") ("Connector") 8192 true false false

/-- Modelled from the spec: allocating a record from a pool returns a
zeroed record when the pool zero-initializes, and otherwise whatever
junk contents the raw memory holds. -/
def pool_alloc {α : Type} (p : Pool) (junk zeroed : α) : α :=
  if p.zero_out then zeroed else junk

/-- The all-zero Connector record (NULL label, zero cost and limit,
cleared flags, zero distance fields, empty provenance). -/
def zeroConnector : Connector := ⟨"", 0, 0, false, 0, 0, []⟩

/-! ### Pipeline (from source: `prepare_to_parse`; the Provenance
Tagger's call site is modelled from the spec) -/

/-- Embedding of `prepare_to_parse` from the source: build the disjunct
lists of all words, then eliminate duplicates on every word's list, then
run the Connector Reachability Setter (the verbosity-gated printing it
performs is observability only and has no effect on the data). -/
def prepare_to_parse (opts : Parse_Options) (sent : Sentence) : Sentence :=
  setup_connectors (eliminate_duplicates_stage
    (build_sentence_disjuncts opts.disjunct_cost sent))

/-- Modelled from the spec: the surrounding system invokes the
Provenance Tagger on the surviving disjuncts after `prepare_to_parse`
(the tagger's call site and the packing of the surviving disjuncts into
`sent->dc_memblock` are not in the source tree; the surviving disjuncts
are held per word here). -/
def preparation_pipeline (opts : Parse_Options) (sent : Sentence) : Sentence :=
  ⟨(prepare_to_parse opts sent).word.map fun wd =>
    { wd with d := gword_record_in_connector wd.d }⟩

/-! ## Lemmas about `set_dist_fields` -/

theorem sdf_len (l : List Connector) (w : Nat) (delta w_clamp : Int) :
    (set_dist_fields l w delta w_clamp).1.length = l.length := by
  induction l with
  | nil => simp [set_dist_fields]
  | cons c rest ih => simp [set_dist_fields, ih]

theorem sdf_ret (l : List Connector) (w : Nat) (delta w_clamp : Int) :
    (set_dist_fields l w delta w_clamp).2 = (w : Int) + delta * l.length := by
  induction l with
  | nil => simp [set_dist_fields]
  | cons c rest ih =>
    simp [set_dist_fields, ih]
    ring

theorem sdf_get (l : List Connector) (w : Nat) (delta w_clamp : Int)
    (j : Nat) (hj : j < l.length)
    (hj2 : j < (set_dist_fields l w delta w_clamp).1.length) :
    (set_dist_fields l w delta w_clamp).1[j] =
      { l[j] with
        nearest_word := (w : Int) + delta * ((l.length : Int) - (j : Int)),
        farthest_word :=
          if delta * ((w : Int) + delta * (l[j].length_limit : Int)) > w_clamp
          then w_clamp else (w : Int) + delta * (l[j].length_limit : Int) } := by
  induction l generalizing j with
  | nil => simp at hj
  | cons c rest ih =>
    cases j with
    | zero =>
      simp [set_dist_fields, sdf_ret]
      ring
    | succ j =>
      have hjr : j < rest.length := by simpa using hj
      have hjr2 : j < (set_dist_fields rest w delta w_clamp).1.length := by
        rw [sdf_len]; exact hjr
      have := ih j hjr hjr2
      simp only [set_dist_fields, List.getElem_cons_succ]
      rw [this]
      have hcast : ((rest.length + 1 : Nat) : Int) - ((j + 1 : Nat) : Int)
          = (rest.length : Int) - (j : Int) := by push_cast; ring
      simp only [List.length_cons, hcast]

theorem sdf_mem {l : List Connector} {w : Nat} {delta w_clamp : Int} {c : Connector}
    (hc : c ∈ (set_dist_fields l w delta w_clamp).1) :
    ∃ c0 ∈ l, ∃ k : Nat, 1 ≤ k ∧ k ≤ l.length ∧
      c = { c0 with
        nearest_word := (w : Int) + delta * (k : Int),
        farthest_word :=
          if delta * ((w : Int) + delta * (c0.length_limit : Int)) > w_clamp
          then w_clamp else (w : Int) + delta * (c0.length_limit : Int) } := by
  induction l with
  | nil => simp [set_dist_fields] at hc
  | cons c0 rest ih =>
    simp only [set_dist_fields, List.mem_cons] at hc
    rcases hc with hc | hc
    · refine ⟨c0, List.mem_cons_self _ _, rest.length + 1, by omega, by simp, ?_⟩
      rw [hc]
      have : (set_dist_fields rest w delta w_clamp).2 + delta
          = (w : Int) + delta * ((rest.length + 1 : Nat) : Int) := by
        rw [sdf_ret]; push_cast; ring
      simp [this]
    · rcases ih hc with ⟨c1, hc1, k, hk1, hk2, hck⟩
      exact ⟨c1, List.mem_cons_of_mem _ hc1, k, hk1, by simp; omega, hck⟩

theorem sdf_map_shallow (l : List Connector) (w : Nat) (delta w_clamp : Int) :
    (set_dist_fields l w delta w_clamp).1.map Connector.shallow
      = l.map Connector.shallow := by
  induction l with
  | nil => simp [set_dist_fields]
  | cons c rest ih => simp [set_dist_fields, ih]

/-! ## Lemmas about `setup_disjunct`, `setup_word`, `setup_words` -/

/-- Both distance bounds of a connector lie inside the sentence. -/
def connector_in_range (len : Nat) (c : Connector) : Prop :=
  0 ≤ c.nearest_word ∧ c.nearest_word < (len : Int) ∧
  0 ≤ c.farthest_word ∧ c.farthest_word < (len : Int)

instance (len : Nat) (c : Connector) : Decidable (connector_in_range len c) := by
  unfold connector_in_range
  infer_instance

theorem setup_disjunct_none_iff (w len : Nat) (d : Disjunct) :
    setup_disjunct w len d = none ↔ (w < d.left.length ∨ len ≤ w + d.right.length) := by
  have hl := sdf_ret d.left w (-1) 0
  have hr := sdf_ret d.right w 1 ((len : Int) - 1)
  unfold setup_disjunct
  rw [hl, hr]
  split_ifs with h1 h2 <;> simp <;> omega

theorem markShallow_mem {l : List Connector} {c : Connector} (h : c ∈ markShallow l) :
    ∃ c2 ∈ l, c.nearest_word = c2.nearest_word ∧ c.farthest_word = c2.farthest_word := by
  cases l with
  | nil => simp [markShallow] at h
  | cons c0 cs =>
    simp only [markShallow, List.mem_cons] at h
    rcases h with h | h
    · exact ⟨c0, List.mem_cons_self _ _, by rw [h], by rw [h]⟩
    · exact ⟨c, List.mem_cons_of_mem _ h, rfl, rfl⟩

theorem setup_disjunct_some {w len : Nat} {d d2 : Disjunct}
    (h : setup_disjunct w len d = some d2) :
    d.left.length ≤ w ∧ w + d.right.length < len ∧
    d2 = { d with
      left := markShallow (set_dist_fields d.left w (-1) 0).1,
      right := markShallow (set_dist_fields d.right w 1 ((len : Int) - 1)).1 } := by
  have hl := sdf_ret d.left w (-1) 0
  have hr := sdf_ret d.right w 1 ((len : Int) - 1)
  unfold setup_disjunct at h
  split_ifs at h with h1 h2
  rw [hl] at h1
  rw [hr] at h2
  refine ⟨by omega, by omega, ?_⟩
  exact (Option.some_injective _ h).symm

theorem setup_disjunct_conn_range {w len : Nat} {d d2 : Disjunct} {c : Connector}
    (h : setup_disjunct w len d = some d2) (hc : c ∈ d2.left ∨ c ∈ d2.right) :
    connector_in_range len c := by
  obtain ⟨hnl, hnr, hd2⟩ := setup_disjunct_some h
  have hwlen : w < len := by omega
  rcases hc with hc | hc
  · rw [hd2] at hc
    obtain ⟨c2, hc2, hn, hf⟩ := markShallow_mem hc
    obtain ⟨c0, _hc0, k, hk1, hk2, hck⟩ := sdf_mem hc2
    rw [hck] at hn hf
    simp only at hn hf
    constructor
    · rw [hn]; omega
    constructor
    · rw [hn]; omega
    rw [hf]
    split_ifs with hcl
    · constructor
      · omega
      · omega
    · have hll : (0 : Int) ≤ (c0.length_limit : Int) := by positivity
      constructor
      · omega
      · omega
  · rw [hd2] at hc
    obtain ⟨c2, hc2, hn, hf⟩ := markShallow_mem hc
    obtain ⟨c0, _hc0, k, hk1, hk2, hck⟩ := sdf_mem hc2
    rw [hck] at hn hf
    simp only at hn hf
    constructor
    · rw [hn]; omega
    constructor
    · rw [hn]; omega
    rw [hf]
    split_ifs with hcl
    · constructor
      · omega
      · omega
    · have hll : (0 : Int) ≤ (c0.length_limit : Int) := by positivity
      constructor
      · omega
      · omega

theorem setup_word_mem {w len : Nat} {dl head : List Disjunct} {d : Disjunct} :
    d ∈ setup_word w len dl head
      ↔ (d ∈ head ∨ ∃ d0 ∈ dl, setup_disjunct w len d0 = some d) := by
  induction dl generalizing head with
  | nil => simp [setup_word]
  | cons d0 rest ih =>
    simp only [setup_word]
    cases hs : setup_disjunct w len d0 with
    | none =>
      rw [ih]
      simp only [List.mem_cons]
      constructor
      · rintro (hh | ⟨d1, hd1, hd1s⟩)
        · exact Or.inl hh
        · exact Or.inr ⟨d1, Or.inr hd1, hd1s⟩
      · rintro (hh | ⟨d1, (rfl | hd1), hd1s⟩)
        · exact Or.inl hh
        · rw [hs] at hd1s; cases hd1s
        · exact Or.inr ⟨d1, hd1, hd1s⟩
    | some d2 =>
      rw [ih]
      simp only [List.mem_cons]
      constructor
      · rintro ((rfl | hh) | ⟨d1, hd1, hd1s⟩)
        · exact Or.inr ⟨d0, Or.inl rfl, hs⟩
        · exact Or.inl hh
        · exact Or.inr ⟨d1, Or.inr hd1, hd1s⟩
      · rintro (hh | ⟨d1, (rfl | hd1), hd1s⟩)
        · exact Or.inl (Or.inr hh)
        · rw [hs] at hd1s
          exact Or.inl (Or.inl (Option.some_injective _ hd1s).symm)
        · exact Or.inr ⟨d1, hd1, hd1s⟩

theorem setup_words_getElem (len : Nat) (i : Nat) (ws : List Word) (j : Nat) :
    (setup_words len i ws)[j]?
      = (ws[j]?).map fun wd => { wd with d := setup_word (i + j) len wd.d [] } := by
  induction ws generalizing i j with
  | nil => simp [setup_words]
  | cons wd rest ih =>
    cases j with
    | zero => simp [setup_words]
    | succ j =>
      have harith : i + 1 + j = i + (j + 1) := by omega
      simp only [setup_words, List.getElem?_cons_succ, ih (i + 1) j, harith]

theorem setup_connectors_getElem (sent : Sentence) (w : Nat) :
    (setup_connectors sent).word[w]?
      = (sent.word[w]?).map fun wd => { wd with d := setup_word w sent.length wd.d [] } := by
  have := setup_words_getElem sent.length 0 sent.word w
  simpa [setup_connectors] using this

theorem markShallow_head_shallow {l : List Connector} {c : Connector}
    (h : (markShallow l).head? = some c) : c.shallow = true := by
  cases l with
  | nil => simp [markShallow] at h
  | cons c0 cs =>
    simp only [markShallow, List.head?_cons, Option.some_inj] at h
    rw [← h]

theorem markShallow_tail (l : List Connector) : (markShallow l).tail = l.tail := by
  cases l <;> simp [markShallow]

theorem map_tail_eq (f : Connector → Bool) (l : List Connector) :
    l.tail.map f = (l.map f).tail := by
  cases l <;> simp

/-! ## Claim theorems about the Connector Reachability Setter -/

/-- C1: after `setup_connectors` runs, every connector on either chain of
every disjunct that remains in any word's list has `nearest_word` and
`farthest_word` within [0, sentence length); and every surviving disjunct
is an input disjunct processed in its entirety by `setup_disjunct` (a
disjunct whose computation yields an out-of-range bound is removed whole,
none of its connectors is patched to keep it). -/
theorem setup_connectors_bounds (sent : Sentence) (w : Nat) (wd wd2 : Word)
    (d : Disjunct) (c : Connector)
    (hw : sent.word[w]? = some wd)
    (hw2 : (setup_connectors sent).word[w]? = some wd2)
    (hd : d ∈ wd2.d)
    (hc : c ∈ d.left ∨ c ∈ d.right) :
    connector_in_range sent.length c ∧
    ∃ d0 ∈ wd.d, setup_disjunct w sent.length d0 = some d := by
  rw [setup_connectors_getElem, hw] at hw2
  simp only [Option.map_some', Option.some_inj] at hw2
  rw [← hw2] at hd
  simp only at hd
  rw [setup_word_mem] at hd
  rcases hd with hd | ⟨d0, hd0, hd0s⟩
  · simp at hd
  · exact ⟨setup_disjunct_conn_range hd0s hc, d0, hd0, hd0s⟩

/-- C8: after the Reachability Setter runs, the first connector of each
non-empty chain of a surviving disjunct has `shallow = true`, and the
`shallow` flags of all deeper connectors are exactly those the disjunct
carried before this step (the step sets no other `shallow` flag). -/
theorem setup_connectors_shallow (sent : Sentence) (w : Nat) (wd wd2 : Word)
    (d : Disjunct)
    (hw : sent.word[w]? = some wd)
    (hw2 : (setup_connectors sent).word[w]? = some wd2)
    (hd : d ∈ wd2.d) :
    (∀ c, d.left.head? = some c → c.shallow = true) ∧
    (∀ c, d.right.head? = some c → c.shallow = true) ∧
    ∃ d0 ∈ wd.d, setup_disjunct w sent.length d0 = some d ∧
      d.left.tail.map Connector.shallow = d0.left.tail.map Connector.shallow ∧
      d.right.tail.map Connector.shallow = d0.right.tail.map Connector.shallow := by
  rw [setup_connectors_getElem, hw] at hw2
  simp only [Option.map_some', Option.some_inj] at hw2
  rw [← hw2] at hd
  simp only at hd
  rw [setup_word_mem] at hd
  rcases hd with hd | ⟨d0, hd0, hd0s⟩
  · simp at hd
  obtain ⟨_, _, hd2⟩ := setup_disjunct_some hd0s
  refine ⟨?_, ?_, d0, hd0, hd0s, ?_, ?_⟩
  · intro c hc
    rw [hd2] at hc
    simp only at hc
    exact markShallow_head_shallow hc
  · intro c hc
    rw [hd2] at hc
    simp only at hc
    exact markShallow_head_shallow hc
  · rw [hd2]
    simp only
    rw [markShallow_tail, map_tail_eq, map_tail_eq, sdf_map_shallow]
  · rw [hd2]
    simp only
    rw [markShallow_tail, map_tail_eq, map_tail_eq, sdf_map_shallow]

/-- C10: the Reachability Setter's drop decision depends only on the
lengths of the two connector chains, never on any `length_limit`: a
disjunct at word `w` is dropped iff its left chain is longer than `w` or
`w` plus its right chain length reaches the sentence length; a disjunct
with two empty chains always survives. -/
theorem setup_disjunct_drop_iff (w len : Nat) (d : Disjunct) :
    (setup_disjunct w len d = none ↔ (w < d.left.length ∨ len ≤ w + d.right.length)) ∧
    ((d.left = [] ∧ d.right = [] ∧ w < len) → ∃ d2, setup_disjunct w len d = some d2) := by
  refine ⟨setup_disjunct_none_iff w len d, ?_⟩
  rintro ⟨hl, hr, hw⟩
  cases hs : setup_disjunct w len d with
  | none =>
    rw [setup_disjunct_none_iff] at hs
    rw [hl, hr] at hs
    simp at hs
    omega
  | some d2 => exact ⟨d2, rfl⟩

/-- C2: `set_dist_fields` gives each connector a `nearest_word` equal to
the next-outward connector's resolved index shifted one word in the
chain's direction (the outermost connector resolving against `w`), and a
`farthest_word` equal to `w` offset by the direction-signed
`length_limit`, clamped at the sentence boundary, so that the farthest
bound is at most `length_limit` words from `w`. -/
theorem set_dist_fields_spec (l : List Connector) (w : Nat) (delta w_clamp : Int)
    (j : Nat) (hj : j < l.length)
    (hj2 : j < (set_dist_fields l w delta w_clamp).1.length) :
    (set_dist_fields l w delta w_clamp).1.length = l.length ∧
    (set_dist_fields l w delta w_clamp).1[j].nearest_word
      = (w : Int) + delta * ((l.length : Int) - (j : Int)) ∧
    (∀ (hj1 : j + 1 < l.length) (hj21 : j + 1 < (set_dist_fields l w delta w_clamp).1.length),
      (set_dist_fields l w delta w_clamp).1[j].nearest_word
        = (set_dist_fields l w delta w_clamp).1[j + 1].nearest_word + delta) ∧
    (j = l.length - 1 →
      (set_dist_fields l w delta w_clamp).1[j].nearest_word = (w : Int) + delta) ∧
    (set_dist_fields l w delta w_clamp).1[j].farthest_word
      = (if delta * ((w : Int) + delta * (l[j].length_limit : Int)) > w_clamp
         then w_clamp else (w : Int) + delta * (l[j].length_limit : Int)) ∧
    ((delta = -1 ∧ w_clamp = 0) ∨ (delta = 1 ∧ (w : Int) ≤ w_clamp) →
      |(set_dist_fields l w delta w_clamp).1[j].farthest_word - (w : Int)|
        ≤ (l[j].length_limit : Int)) := by
  refine ⟨sdf_len l w delta w_clamp, ?_, ?_, ?_, ?_, ?_⟩
  · rw [sdf_get l w delta w_clamp j hj hj2]
  · intro hj1 hj21
    rw [sdf_get l w delta w_clamp j hj hj2, sdf_get l w delta w_clamp (j + 1) hj1 hj21]
    simp only
    push_cast
    ring
  · intro hjl
    rw [sdf_get l w delta w_clamp j hj hj2]
    simp only
    have hlen1 : 1 ≤ l.length := by omega
    have : ((l.length : Int) - (j : Int)) = 1 := by omega
    rw [this]
    ring
  · rw [sdf_get l w delta w_clamp j hj hj2]
  · intro hcase
    rw [sdf_get l w delta w_clamp j hj hj2]
    simp only
    rcases hcase with ⟨hd, hcl⟩ | ⟨hd, hcl⟩ <;> subst hd <;> subst_eqs <;>
      split_ifs with hclamp <;> rw [abs_le] <;> constructor <;> omega

/-! ## Claim theorems about the Provenance Tagger and the pools -/

/-- C9: after `gword_record_in_connector` runs, every connector on both
chains of every disjunct of the disjunct block carries its owning
disjunct's `originating_gword`; the operation removes nothing — the
block keeps its length and each entry keeps all its fields except for
the copied connector provenance. -/
theorem gword_record_in_connector_spec (block : List Disjunct) (d : Disjunct)
    (c : Connector) (j : Nat)
    (hd : d ∈ gword_record_in_connector block)
    (hc : c ∈ d.left ∨ c ∈ d.right)
    (hj : j < block.length)
    (hj2 : j < (gword_record_in_connector block).length) :
    c.originating_gword = d.originating_gword ∧
    (gword_record_in_connector block).length = block.length ∧
    (gword_record_in_connector block)[j].string = block[j].string ∧
    (gword_record_in_connector block)[j].cost = block[j].cost ∧
    (gword_record_in_connector block)[j].originating_gword
      = block[j].originating_gword ∧
    (gword_record_in_connector block)[j].left
      = block[j].left.map
          (fun c0 => { c0 with originating_gword := block[j].originating_gword }) ∧
    (gword_record_in_connector block)[j].right
      = block[j].right.map
          (fun c0 => { c0 with originating_gword := block[j].originating_gword }) := by
  obtain ⟨d0, _hd0, hfd⟩ := List.mem_map.mp hd
  refine ⟨?_, by simp [gword_record_in_connector], ?_, ?_, ?_, ?_, ?_⟩
  · subst hfd
    dsimp only at hc ⊢
    rcases hc with hc | hc <;> obtain ⟨c0, _hc0, hgc⟩ := List.mem_map.mp hc <;>
      rw [← hgc]
  all_goals simp [gword_record_in_connector]

/-- C7: the per-sentence pools do not zero-initialize Disjunct records
but do zero-initialize Connector records, so every Connector obtained
from the pool has its distance and flag fields (`nearest_word`,
`farthest_word`, `shallow`) zeroed. -/
theorem sentence_pools_zeroing :
    sentence_Disjunct_pool.zero_out = false ∧
    sentence_Connector_pool.zero_out = true ∧
    (∀ junk : Connector,
      (pool_alloc sentence_Connector_pool junk zeroConnector).nearest_word = 0 ∧
      (pool_alloc sentence_Connector_pool junk zeroConnector).farthest_word = 0 ∧
      (pool_alloc sentence_Connector_pool junk zeroConnector).shallow = false) ∧
    (∀ junk zeroed : Disjunct, pool_alloc sentence_Disjunct_pool junk zeroed = junk) := by
  refine ⟨rfl, rfl, fun junk => ?_, fun junk zeroed => ?_⟩
  · exact ⟨rfl, rfl, rfl⟩
  · rfl

/-! ## Claim theorems about the Expression Expander and the Merger -/

theorem build_clause_cost_le (e : Exp) (cutoff : ℚ) (p : Clause)
    (hp : p ∈ build_clause cutoff e) : p.cost ≤ cutoff := by
  induction e with
  | connectorE rs lab c ll opt =>
    simp only [build_clause, List.mem_append] at hp
    rcases hp with hp | hp
    · split_ifs at hp with h hrs
      · simp only [List.mem_singleton] at hp
        rw [hp]
        exact h
      · simp only [List.mem_singleton] at hp
        rw [hp]
        exact h
      · simp at hp
    · split_ifs at hp with h
      · simp only [List.mem_singleton] at hp
        rw [hp]
        simpa [emptyClause] using h.2
      · simp at hp
  | andNil =>
    simp only [build_clause] at hp
    split_ifs at hp with h
    · simp only [List.mem_singleton] at hp
      rw [hp]
      simpa [emptyClause] using h
    · simp at hp
  | andE a b iha ihb =>
    simp only [build_clause, List.mem_flatMap] at hp
    obtain ⟨pa, _hpa, hp⟩ := hp
    obtain ⟨pb, _hpb, hmb⟩ := List.mem_filterMap.mp hp
    split_ifs at hmb with h
    simp only [Option.some_inj] at hmb
    rw [← hmb]
    simpa [combineClause] using h
  | orNil => simp [build_clause] at hp
  | orE a b iha ihb =>
    simp only [build_clause, List.mem_append] at hp
    rcases hp with hp | hp
    · exact iha hp
    · exact ihb hp

/-- C5: every disjunct in the list produced by expanding an expression
with cost cutoff C has total cost at most C. -/
theorem build_disjuncts_for_exp_cost_le (e : Exp) (wstring : String)
    (gs : List Nat) (cutoff : ℚ) (d : Disjunct)
    (hd : d ∈ build_disjuncts_for_exp e wstring gs cutoff) :
    d.cost ≤ cutoff := by
  obtain ⟨p, hp, hpd⟩ := List.mem_map.mp hd
  rw [← hpd]
  exact build_clause_cost_le e cutoff p hp

theorem build_word_disjuncts_multiset_aux (cutoff : ℚ) (xs : List X_node)
    (init : List Disjunct) :
    ((xs.foldl
        (fun d x => catenate_disjuncts
          (build_disjuncts_for_exp x.exp x.string x.gword_set_head cutoff) d)
        init : List Disjunct) : Multiset Disjunct)
      = (xs.map fun x =>
          ((build_disjuncts_for_exp x.exp x.string x.gword_set_head cutoff
            : List Disjunct) : Multiset Disjunct)).sum + (init : Multiset Disjunct) := by
  induction xs generalizing init with
  | nil => simp
  | cons x xs ih =>
    rw [List.foldl_cons, ih]
    simp only [catenate_disjuncts, List.map_cons, List.sum_cons]
    rw [← Multiset.coe_add]
    abel

/-- C4: for every word, the Disjunct List Merger produces a single list
whose multiset of disjuncts equals the union (multiset sum) of the
disjunct lists produced for that word's alternatives: no input disjunct
is duplicated and none is dropped. -/
theorem build_word_disjuncts_multiset (cutoff : ℚ) (xs : List X_node) :
    ((build_word_disjuncts cutoff xs : List Disjunct) : Multiset Disjunct)
      = (xs.map fun x =>
          ((build_disjuncts_for_exp x.exp x.string x.gword_set_head cutoff
            : List Disjunct) : Multiset Disjunct)).sum := by
  have := build_word_disjuncts_multiset_aux cutoff xs []
  simpa [build_word_disjuncts] using this

/-! ## Claim theorems about the Duplicate Eliminator -/

theorem dKey_update_gword (a : Disjunct) (g : List Nat) :
    dKey { a with originating_gword := g } = dKey a := rfl

theorem insert_dup_map_dKey (acc : List Disjunct) (d : Disjunct) :
    (insert_dup acc d).map dKey
      = if dKey d ∈ acc.map dKey then acc.map dKey
        else acc.map dKey ++ [dKey d] := by
  induction acc with
  | nil => simp [insert_dup]
  | cons a rest ih =>
    by_cases h1 : dKey a = dKey d
    · have hmem : dKey d ∈ List.map dKey (a :: rest) := by
        simp only [List.map_cons, List.mem_cons]
        exact Or.inl h1.symm
      rw [if_pos hmem]
      simp only [insert_dup, if_pos h1, List.map_cons, dKey_update_gword]
    · by_cases h2 : dKey d ∈ List.map dKey rest
      · have hmem : dKey d ∈ List.map dKey (a :: rest) := by
          simp only [List.map_cons, List.mem_cons]
          exact Or.inr h2
        rw [if_pos hmem]
        simp only [insert_dup, if_neg h1, List.map_cons, ih, if_pos h2]
      · have hmem : dKey d ∉ List.map dKey (a :: rest) := by
          simp only [List.map_cons, List.mem_cons]
          push_neg
          exact ⟨fun he => h1 he.symm, h2⟩
        rw [if_neg hmem]
        simp only [insert_dup, if_neg h1, List.map_cons, ih, if_neg h2]
        simp

theorem insert_dup_not_mem (acc : List Disjunct) (d : Disjunct)
    (h : dKey d ∉ acc.map dKey) : insert_dup acc d = acc ++ [d] := by
  induction acc with
  | nil => simp [insert_dup]
  | cons a rest ih =>
    simp only [List.map_cons, List.mem_cons] at h
    push_neg at h
    simp only [insert_dup]
    split_ifs with h1
    · exact absurd h1.symm h.1
    · rw [ih h.2]
      simp

theorem edd_foldl_nodup (l : List Disjunct) (acc : List Disjunct)
    (hacc : (acc.map dKey).Nodup) :
    ((l.foldl insert_dup acc).map dKey).Nodup := by
  induction l generalizing acc with
  | nil => simpa
  | cons d rest ih =>
    simp only [List.foldl_cons]
    apply ih
    rw [insert_dup_map_dKey]
    split_ifs with h
    · exact hacc
    · simp [List.nodup_append, hacc, h]

theorem foldl_insert_dup_of_nodup (m : List Disjunct) :
    ∀ acc : List Disjunct, ((acc ++ m).map dKey).Nodup →
      m.foldl insert_dup acc = acc ++ m := by
  induction m with
  | nil =>
    intro acc _
    simp
  | cons d rest ih =>
    intro acc h
    have hnd : dKey d ∉ acc.map dKey := by
      rw [List.map_append, List.nodup_append] at h
      intro hmem
      exact h.2.2 hmem (by simp)
    rw [List.foldl_cons, insert_dup_not_mem acc d hnd,
      ih (acc ++ [d]) (by simpa [List.append_assoc] using h)]
    simp

/-- C6: the Duplicate Eliminator is idempotent — running
`eliminate_duplicate_disjuncts` on its own output removes nothing, so
the second run returns the same multiset of disjuncts. -/
theorem eliminate_duplicate_disjuncts_idempotent (l : List Disjunct) :
    ((eliminate_duplicate_disjuncts (eliminate_duplicate_disjuncts l)
        : List Disjunct) : Multiset Disjunct)
      = ((eliminate_duplicate_disjuncts l : List Disjunct) : Multiset Disjunct) := by
  have hnodup : ((eliminate_duplicate_disjuncts l).map dKey).Nodup :=
    edd_foldl_nodup l [] (by simp)
  have heq : eliminate_duplicate_disjuncts (eliminate_duplicate_disjuncts l)
      = eliminate_duplicate_disjuncts l := by
    have := foldl_insert_dup_of_nodup (eliminate_duplicate_disjuncts l) []
      (by simpa using hnodup)
    simpa [eliminate_duplicate_disjuncts] using this
  rw [heq]

/-! ## Claim theorem about the pipeline order -/

theorem build_sentence_disjuncts_length (cutoff : ℚ) (sent : Sentence) :
    (build_sentence_disjuncts cutoff sent).length = sent.length := by
  simp [build_sentence_disjuncts, Sentence.length]

theorem eliminate_duplicates_stage_length (sent : Sentence) :
    (eliminate_duplicates_stage sent).length = sent.length := by
  simp [eliminate_duplicates_stage, Sentence.length]

/-- C3: the preparation pipeline processes every sentence in the fixed
order expansion-and-merge, duplicate elimination, reachability setting,
provenance tagging: each word's final disjunct list is exactly the
composition of the four stages, in that order, applied to the word's
alternatives. -/
theorem preparation_pipeline_order (opts : Parse_Options) (sent : Sentence)
    (w : Nat) :
    ((preparation_pipeline opts sent).word[w]?).map Word.d
      = (sent.word[w]?).map fun wd =>
          gword_record_in_connector
            (setup_word w sent.length
              (eliminate_duplicate_disjuncts
                (build_word_disjuncts opts.disjunct_cost wd.x)) []) := by
  have hlen : (eliminate_duplicates_stage
      (build_sentence_disjuncts opts.disjunct_cost sent)).length = sent.length := by
    rw [eliminate_duplicates_stage_length, build_sentence_disjuncts_length]
  unfold preparation_pipeline prepare_to_parse
  rw [List.getElem?_map, Option.map_map, setup_connectors_getElem, hlen]
  simp only [eliminate_duplicates_stage, build_sentence_disjuncts,
    List.getElem?_map, Option.map_map]
  cases sent.word[w]? <;> rfl

/-! ## Concrete instances used by the witnesses -/

/-- Rightward connector with length limit 1. -/
def cW1 : Connector := ⟨"A", 0, 1, false, 0, 0, []⟩

/-- The connector `cW1` after the Reachability Setter at word 0 of a
two-word sentence: nearest 1, farthest 1, shallow set. -/
def cW2 : Connector := ⟨"A", 0, 1, true, 1, 1, []⟩

/-- One-connector disjunct for word 0. -/
def dW1 : Disjunct := ⟨[], [cW1], "w0", 0, [7]⟩

/-- The disjunct `dW1` after the Reachability Setter. -/
def dW2 : Disjunct := ⟨[], [cW2], "w0", 0, [7]⟩

/-- Word 0 of the witness sentence, before the Reachability Setter. -/
def wdW1 : Word := ⟨[], [dW1]⟩

/-- Word 0 of the witness sentence, after the Reachability Setter. -/
def wdW2 : Word := ⟨[], [dW2]⟩

/-- Two-word witness sentence. -/
def sentW : Sentence := ⟨[wdW1, ⟨[], []⟩]⟩

/-- Leftward connector with length limit 3 (farthest bound clamps). -/
def caW : Connector := ⟨"L", 0, 3, false, 0, 0, []⟩

/-- Leftward connector with length limit 1. -/
def cbW : Connector := ⟨"M", 0, 1, false, 0, 0, []⟩

/-- Two-connector left chain at word 1. -/
def chainW : List Connector := [caW, cbW]

/-- Single-terminal expression of cost 0. -/
def eW : Exp := .connectorE true ("S") 0 1 false

/-- The disjunct obtained by expanding `eW`. -/
def dW5 : Disjunct := ⟨[], [mkConnector ("S") 0 1], "w", 0, []⟩

/-- Left connector with empty provenance, before the tagger. -/
def cW9 : Connector := ⟨"B", 0, 2, false, 0, 0, []⟩

/-- The connector `cW9` after the Provenance Tagger copied `[3]`. -/
def cW9t : Connector := ⟨"B", 0, 2, false, 0, 0, [3]⟩

/-- One-connector disjunct with provenance `[3]`, before the tagger. -/
def dW9 : Disjunct := ⟨[cW9], [], "g", 0, [3]⟩

/-- The disjunct `dW9` after the Provenance Tagger. -/
def dW9t : Disjunct := ⟨[cW9t], [], "g", 0, [3]⟩

/-- One-disjunct disjunct block. -/
def blkW : List Disjunct := [dW9]

/-- Disjunct with two empty chains. -/
def dW10 : Disjunct := ⟨[], [], "e", 0, []⟩

/-! ## Witnesses -/

/-- Witness for C1 at a concrete two-word sentence. -/
theorem setup_connectors_bounds_witness :
    connector_in_range sentW.length cW2 ∧
    ∃ d0 ∈ wdW1.d, setup_disjunct 0 sentW.length d0 = some dW2 :=
  setup_connectors_bounds sentW 0 wdW1 wdW2 dW2 cW2 rfl rfl (by decide)
    (Or.inr (by decide))

/-- Witness for C8 at the same concrete sentence. -/
theorem setup_connectors_shallow_witness :
    (∀ c, dW2.left.head? = some c → c.shallow = true) ∧
    (∀ c, dW2.right.head? = some c → c.shallow = true) ∧
    ∃ d0 ∈ wdW1.d, setup_disjunct 0 sentW.length d0 = some dW2 ∧
      dW2.left.tail.map Connector.shallow = d0.left.tail.map Connector.shallow ∧
      dW2.right.tail.map Connector.shallow = d0.right.tail.map Connector.shallow :=
  setup_connectors_shallow sentW 0 wdW1 wdW2 dW2 rfl rfl (by decide)

/-- Witness for C2: head connector of a left chain of length 2 at word 1
gets nearest_word -1, and its farthest bound clamps at 0. -/
theorem set_dist_fields_spec_witness :
    ((set_dist_fields chainW 1 (-1) 0).1.get ⟨0, by decide⟩).nearest_word = -1 ∧
    ((set_dist_fields chainW 1 (-1) 0).1.get ⟨0, by decide⟩).farthest_word = 0 := by
  have h := set_dist_fields_spec chainW 1 (-1) 0 0 (by decide) (by decide)
  exact ⟨h.2.1.trans (by decide), (h.2.2.2.2.1).trans (by decide)⟩

/-- Witness for C5 at a single-terminal expression with cutoff 1. -/
theorem build_disjuncts_for_exp_cost_le_witness :
    dW5 ∈ build_disjuncts_for_exp eW ("w") [] 1 ∧ dW5.cost ≤ 1 :=
  ⟨by decide, build_disjuncts_for_exp_cost_le eW ("w") [] 1 dW5 (by decide)⟩

/-- Witness for C9 at a one-disjunct block. -/
theorem gword_record_in_connector_spec_witness :
    cW9t.originating_gword = dW9t.originating_gword ∧
    (gword_record_in_connector blkW).length = blkW.length ∧
    ((gword_record_in_connector blkW).get ⟨0, by decide⟩).string
      = (blkW.get ⟨0, by decide⟩).string ∧
    ((gword_record_in_connector blkW).get ⟨0, by decide⟩).cost
      = (blkW.get ⟨0, by decide⟩).cost ∧
    ((gword_record_in_connector blkW).get ⟨0, by decide⟩).originating_gword
      = (blkW.get ⟨0, by decide⟩).originating_gword ∧
    ((gword_record_in_connector blkW).get ⟨0, by decide⟩).left
      = (blkW.get ⟨0, by decide⟩).left.map
          (fun c0 => { c0 with
            originating_gword := (blkW.get ⟨0, by decide⟩).originating_gword }) ∧
    ((gword_record_in_connector blkW).get ⟨0, by decide⟩).right
      = (blkW.get ⟨0, by decide⟩).right.map
          (fun c0 => { c0 with
            originating_gword := (blkW.get ⟨0, by decide⟩).originating_gword }) :=
  gword_record_in_connector_spec blkW dW9t cW9t 0 (by decide) (Or.inl (by decide))
    (by decide) (by decide)

/-- Witness for C10: the all-empty disjunct survives at word 0 of a
two-word sentence. -/
theorem setup_disjunct_drop_iff_witness :
    dW10.left = [] ∧ dW10.right = [] ∧ 0 < 2 ∧
    ∃ d2, setup_disjunct 0 2 dW10 = some d2 :=
  ⟨rfl, rfl, by decide, (setup_disjunct_drop_iff 0 2 dW10).2 ⟨rfl, rfl, by decide⟩⟩

end LG
